import Mathlib

/-!
Shallow embedding of the Employee Data Platform (single-file Flask app,
`src/app.py`) and verification of its specification claims.

Modelling conventions:
* machine state (SQLite tables, upload directory) is explicit: the relational
  store is a pair of lists kept in insertion order, the upload directory is a
  list of `(subdirectory, filename)` pairs;
* Python strings are Lean `String`s; `str.strip()` is modelled for ASCII
  whitespace; SQLite's ASCII-only `lower()` is `Char.toLower`;
* exceptions are explicit: operations return their final state together with
  an `Except`-style outcome, and Flask `flash(..., "warning")` messages are
  collected in a warnings list;
* `datetime.strptime(raw, "%Y-%m-%d")` is modelled after CPython's `_strptime`
  regexes (4-digit year, 1-2 digit month/day) plus calendar validation;
* filesystem paths (for `serve_file`) are lists of segments; `Path.resolve` is
  modelled lexically (no symlinks), `..` popping one segment.
-/

namespace EDP

/-- Python `str.strip()` whitespace, restricted to the ASCII whitespace
characters (the app only ever strips form fields). -/
def isPyWs (c : Char) : Bool :=
  c = ' ' || c = '\t' || c = '\n' || c = '\r' || c = '\x0b' || c = '\x0c'

/-- Python `s.strip()`: drop leading and trailing whitespace. -/
def pyStrip (s : String) : String :=
  ⟨((s.data.dropWhile isPyWs).reverse.dropWhile isPyWs).reverse⟩

/-- Errors surfaced by the app: `ValueError` (a validation failure carrying its
message), 404 and 403 aborts. -/
inductive AppError where
  | validation (msg : String)
  | notFound
  | accessDenied
deriving DecidableEq, Repr

/-- `ALLOWED_EXTENSIONS` from the config section of `app.py`. -/
def allowedExtensions : List String :=
  ["pdf", "doc", "docx", "png", "jpg", "jpeg", "webp", "xlsx", "xls"]

/-- The characters after the last `'.'` of a list, when the list contains a
dot: the code-side counterpart of Python `filename.rsplit(".", 1)[1]`
(guarded by `"." in filename`). Recursion prefers the deeper (later) dot. -/
def extAfterLastDot : List Char → Option (List Char)
  | [] => none
  | c :: cs =>
    match extAfterLastDot cs with
    | some e => some e
    | none => if c = '.' then some cs else none

/-- `allowed_file` from `app.py`:
`"." in filename and filename.rsplit(".", 1)[1].lower() in ALLOWED_EXTENSIONS`. -/
def allowed_file (filename : String) : Bool :=
  match extAfterLastDot filename.data with
  | some e => allowedExtensions.contains ⟨e.map Char.toLower⟩
  | none => false

/-- A calendar date (`datetime.date`). -/
structure MyDate where
  year : Nat
  month : Nat
  day : Nat
deriving DecidableEq, Repr

/-- Gregorian leap year rule, as implemented by `datetime`. -/
def isLeap (y : Nat) : Bool :=
  (y % 4 = 0 && y % 100 ≠ 0) || y % 400 = 0

/-- Days in a month, as validated by the `datetime` constructor. -/
def daysInMonth (y m : Nat) : Nat :=
  if m = 2 then (if isLeap y then 29 else 28)
  else if m = 4 || m = 6 || m = 9 || m = 11 then 30
  else 31

/-- Decimal digit value of a character, if it is one. -/
def digitVal (c : Char) : Option Nat :=
  if '0' ≤ c && c ≤ '9' then some (c.toNat - 48) else none

/-- CPython `_strptime` directive `%m`, regex `1[0-2]|0[1-9]|[1-9]`: consume a
one- or two-digit month from the front, greedily (the two-digit alternatives
first), returning the month and the unconsumed rest.  Whenever a two-digit
alternative matches, the consumed second character is a digit, so the
one-digit alternative (which would need the following `'-'` literal right
there) could not succeed instead: no backtracking is lost. -/
def parseMonth : List Char → Option (Nat × List Char)
  | [] => none
  | a :: rest =>
    match rest with
    | b :: rest' =>
      if a = '1' && ('0' ≤ b && b ≤ '2') then some (10 + (b.toNat - 48), rest')
      else if a = '0' && ('1' ≤ b && b ≤ '9') then some (b.toNat - 48, rest')
      else if '1' ≤ a && a ≤ '9' then some (a.toNat - 48, b :: rest')
      else none
    | [] => if '1' ≤ a && a ≤ '9' then some (a.toNat - 48, []) else none

/-- CPython `_strptime` directive `%d`, regex `3[01]|[12]\d|0[1-9]|[1-9]`, at
the end of the format string: the whole remaining input must be consumed
(otherwise strptime raises "unconverted data remains"), so a two-character
input must match a two-digit alternative and a one-character input the
one-digit alternative. -/
def parseDay : List Char → Option Nat
  | [a] => if '1' ≤ a && a ≤ '9' then some (a.toNat - 48) else none
  | [a, b] =>
    if a = '3' && (b = '0' || b = '1') then some (30 + (b.toNat - 48))
    else if ('1' ≤ a && a ≤ '2') && ('0' ≤ b && b ≤ '9') then
      some ((a.toNat - 48) * 10 + (b.toNat - 48))
    else if a = '0' && ('1' ≤ b && b ≤ '9') then some (b.toNat - 48)
    else none
  | _ => none

/-- `datetime.strptime(raw, "%Y-%m-%d").date()`: a 4-digit year (`\d\d\d\d`),
a literal `'-'`, a 1-2 digit month, a literal `'-'`, a 1-2 digit day consuming
the rest of the string, then calendar validation by the `datetime`
constructor (`MINYEAR = 1`, day within the month). `none` models the
`ValueError` raised on any failure. -/
def parse_date (raw : String) : Option MyDate :=
  match raw.data with
  | y1 :: y2 :: y3 :: y4 :: '-' :: rest =>
    match digitVal y1, digitVal y2, digitVal y3, digitVal y4 with
    | some a, some b, some c, some d =>
      let y := ((a * 10 + b) * 10 + c) * 10 + d
      match parseMonth rest with
      | some (m, '-' :: rest') =>
        match parseDay rest' with
        | some dd =>
          if 1 ≤ y && 1 ≤ dd && dd ≤ daysInMonth y m then some ⟨y, m, dd⟩ else none
        | none => none
      | _ => none
    | _, _, _, _ => none
  | _ => none

/-- The `hire_date` handling shared by create and edit:
`if hire_date_raw: try: parse except ValueError: flash(warning)`.  `old` is
the field's value before the block (`None` on create, the stored value on
edit); the returned list holds the flashed warning, if any. -/
def hireDateWarning : String := "صيغة تاريخ التعيين غير صحيحة"

def applyDate (old : Option MyDate) (raw : String) : Option MyDate × List String :=
  if raw = "" then (old, [])
  else
    match parse_date raw with
    | some d => (some d, [])
    | none => (old, [hireDateWarning])

/-- Characters kept by `werkzeug`'s `_filename_ascii_strip_re` (`[A-Za-z0-9_.-]`). -/
def isSafeFilenameChar (c : Char) : Bool :=
  ('A' ≤ c && c ≤ 'Z') || ('a' ≤ c && c ≤ 'z') || ('0' ≤ c && c ≤ '9') ||
    c = '_' || c = '.' || c = '-'

/-- Python `str.split()` (no separator): whitespace-separated words, empty
words dropped.  `cur` accumulates the current word in reverse. -/
def pyWordsAux (cur : List Char) : List Char → List (List Char)
  | [] => if cur.isEmpty then [] else [cur.reverse]
  | c :: cs =>
    if isPyWs c then
      if cur.isEmpty then pyWordsAux [] cs else cur.reverse :: pyWordsAux [] cs
    else pyWordsAux (c :: cur) cs

def pyWords (l : List Char) : List (List Char) := pyWordsAux [] l

/-- Strip leading and trailing `'.'` and `'_'` (Python `str.strip("._")`). -/
def stripDotUnderscore (l : List Char) : List Char :=
  ((l.dropWhile (fun c => c = '.' || c = '_')).reverse.dropWhile
      (fun c => c = '.' || c = '_')).reverse

/-- `werkzeug.utils.secure_filename`, POSIX branch, modelled for ASCII input:
NFKD normalisation followed by `encode("ascii", "ignore")` is the identity on
ASCII characters (non-ASCII characters are modelled as dropped); `os.sep`
(`'/'`) is replaced by a space, whitespace-separated words are joined with
`'_'`, characters outside `[A-Za-z0-9_.-]` are removed, and leading/trailing
`'.'`/`'_'` are stripped.  The Windows device-name branch does not apply. -/
def secure_filename (filename : String) : String :=
  let ascii := filename.data.filter (fun c => c.toNat < 128)
  let spaced := ascii.map (fun c => if c = '/' then ' ' else c)
  let joined := List.intercalate ['_'] (pyWords spaced)
  ⟨stripDotUnderscore (joined.filter isSafeFilenameChar)⟩

/-- `pathlib`'s stem/suffix split of a file name (`dest.stem`, `dest.suffix`):
the suffix starts at the last dot when that dot is neither at position 0 nor
the final character; otherwise the suffix is empty. -/
def pathSplitExt (s : String) : String × String :=
  let l := s.data
  let afterRev := l.reverse.takeWhile (fun c => c ≠ '.')
  if l.contains '.' then
    let i := l.length - 1 - afterRev.length
    if 0 < i ∧ i < l.length - 1 then (⟨l.take i⟩, ⟨l.drop i⟩) else (s, "")
  else (s, "")

/-- Decimal rendering of a natural number (Python `str(i)`/f-string), via
`Nat.digits` so that injectivity follows from `Nat.ofDigits_digits`. -/
def decRepr (n : Nat) : String :=
  if n = 0 then "0"
  else ⟨((Nat.digits 10 n).map (fun d => Char.ofNat (48 + d))).reverse⟩

/-- The `k`-th destination name tried by `save_file`'s uniquing loop:
the sanitized name itself for `k = 0`, then `f"{stem}_{k}{suffix}"`. -/
def candidate (stem suffix : String) (k : Nat) : String :=
  if k = 0 then stem ++ suffix else stem ++ "_" ++ decRepr k ++ suffix

/-- The `while dest.exists()` loop of `save_file`: starting from index `k`,
return the first candidate name not in `taken`.  `fuel` bounds the search; by
pigeonhole, `taken.length + 1` attempts always suffice. -/
def searchFrom (taken : List String) (stem suffix : String) : Nat → Nat → String
  | 0, k => candidate stem suffix k
  | fuel + 1, k =>
    if taken.contains (candidate stem suffix k) then
      searchFrom taken stem suffix fuel (k + 1)
    else candidate stem suffix k

/-- The collision-avoiding destination name chosen by `save_file` for a
sanitized name `base`, given the names already present in the target
subdirectory. -/
def uniquify (taken : List String) (base : String) : String :=
  searchFrom taken (pathSplitExt base).1 (pathSplitExt base).2 (taken.length + 1) 0

/-- The upload directory: the set of stored files as `(subdirectory, name)`
pairs (`<UPLOAD_FOLDER>/<subdirectory>/<name>` on disk). -/
abbrev FS := List (String × String)

/-- An incoming `werkzeug` `FileStorage` (only its filename matters here;
`f`/`file_storage` truthiness is `bool(f.filename)`). -/
structure FileStorage where
  filename : String
deriving DecidableEq, Repr

/-- The `ValueError` message raised by `save_file` for a disallowed type. -/
def badTypeMsg : String := "نوع الملف غير مسموح"

/-- `save_file(file_storage, subdir)` from `app.py`.  Returns the upload
directory after the call together with the outcome: `ok none` when no file or
an empty filename was supplied, `ok (some relpath)` on success (`relpath` is
`str(dest.relative_to(UPLOAD_FOLDER))`, i.e. `subdir/name`), and the
`ValueError` for a disallowed extension, raised before anything is written. -/
def save_file (file : Option FileStorage) (subdir : String) (fs : FS) :
    FS × Except AppError (Option String) :=
  match file with
  | none => (fs, .ok none)
  | some f =>
    if f.filename = "" then (fs, .ok none)
    else if allowed_file f.filename then
      let base := secure_filename f.filename
      let taken := (fs.filter (fun p => p.1 == subdir)).map (fun p => p.2)
      let name := uniquify taken base
      ((subdir, name) :: fs, .ok (some (subdir ++ "/" ++ name)))
    else (fs, .error (.validation badTypeMsg))

/-- An `employees` table row. `created_at`/`updated_at` (`datetime.utcnow`)
are abstract clock ticks. -/
structure Employee where
  id : Nat
  name : String
  specialty : String
  hire_date : Option MyDate
  qualification : String
  courses : String
  experience : String
  certificates_text : String
  cv_filename : Option String
  created_at : Nat
  updated_at : Nat
deriving DecidableEq, Repr

/-- An `employee_files` table row. -/
structure EmployeeFile where
  id : Nat
  employee_id : Nat
  filename : String
  label : String
  uploaded_at : Nat
deriving DecidableEq, Repr

/-- The relational store: both tables in insertion order, plus the next
autoincrement primary keys. -/
structure DB where
  employees : List Employee
  files : List EmployeeFile
  nextEmpId : Nat
  nextFileId : Nat
deriving DecidableEq, Repr

/-- The POST form data consumed by `employee_new`/`employee_edit`.
`hire_date = ""` models an absent or empty field (both are falsy);
`attachment_label = none` models an absent field (the code then defaults it). -/
structure EmpForm where
  name : String
  specialty : String
  qualification : String
  courses : String
  experience : String
  certificates_text : String
  hire_date : String
  cv_file : Option FileStorage
  attachments : List FileStorage
  attachment_label : Option String
deriving DecidableEq, Repr

/-- Default attachment label (`request.form.get("attachment_label", "مرفق")`). -/
def defaultLabel : String := "مرفق"

deriving instance DecidableEq for Except

/-- Outcome of a create/edit request: the committed relational store, the
upload directory (disk writes survive a failed transaction), the flashed
warnings, and either the affected employee's id or the caught error. -/
structure OpResult where
  db : DB
  fs : FS
  warnings : List String
  outcome : Except AppError Nat
deriving DecidableEq, Repr

/-- The `for f in attachments:` loop shared by create and edit: skip falsy
files, store each of the rest under `emp_<id>`, and collect the pending
`EmployeeFile` rows.  On a `ValueError` the loop stops: the upload directory
keeps the files already written, while the pending rows are never committed
(the session is rolled back), so only the directory, the rows gathered so
far, the next id and the error are returned. -/
def processAttachments (empId : Nat) (label : String) (now : Nat) :
    List FileStorage → FS → Nat → FS × List EmployeeFile × Nat × Option AppError
  | [], fs, nid => (fs, [], nid, none)
  | f :: rest, fs, nid =>
    if f.filename = "" then processAttachments empId label now rest fs nid
    else
      match save_file (some f) ("emp_" ++ decRepr empId) fs with
      | (fs', .error e) => (fs', [], nid, some e)
      | (fs', .ok relOpt) =>
        match relOpt with
        | some rel =>
          let r := processAttachments empId label now rest fs' (nid + 1)
          (r.1, ⟨nid, empId, rel, label, now⟩ :: r.2.1, r.2.2.1, r.2.2.2)
        | none => processAttachments empId label now rest fs' nid

/-- The body of `employee_new` after `hire_date` was parsed (`hd` is the
parsed value, `none` on absence or parse failure).  The CV, if supplied, is
stored first (it may raise, aborting with nothing committed); the employee row
is committed on its own; then the attachments are processed, a failure there
leaving the employee committed but no `EmployeeFile` rows. -/
def employee_create_core (form : EmpForm) (hd : Option MyDate) (now : Nat)
    (db : DB) (fs : FS) : OpResult :=
  let cvStep : FS × Except AppError (Option String) :=
    match form.cv_file with
    | some c => if c.filename = "" then (fs, .ok none) else save_file (some c) "cv" fs
    | none => (fs, .ok none)
  match cvStep with
  | (fs₁, .error e) => ⟨db, fs₁, [], .error e⟩
  | (fs₁, .ok cvName) =>
    let emp : Employee :=
      { id := db.nextEmpId
        name := pyStrip form.name
        specialty := pyStrip form.specialty
        hire_date := hd
        qualification := pyStrip form.qualification
        courses := pyStrip form.courses
        experience := pyStrip form.experience
        certificates_text := pyStrip form.certificates_text
        cv_filename := cvName
        created_at := now
        updated_at := now }
    let db₁ : DB := { db with employees := db.employees ++ [emp], nextEmpId := db.nextEmpId + 1 }
    let label := form.attachment_label.getD defaultLabel
    let r := processAttachments emp.id label now form.attachments fs₁ db₁.nextFileId
    match r.2.2.2 with
    | some e => ⟨db₁, r.1, [], .error e⟩
    | none => ⟨{ db₁ with files := db₁.files ++ r.2.1, nextFileId := r.2.2.1 }, r.1, [], .ok emp.id⟩

/-- `employee_new` (POST branch) from `app.py`. -/
def employee_new (form : EmpForm) (now : Nat) (db : DB) (fs : FS) : OpResult :=
  let pd := applyDate none form.hire_date
  let r := employee_create_core form pd.1 now db fs
  { r with warnings := pd.2 ++ r.warnings }

/-- The body of `employee_edit` after the employee was found and `hire_date`
parsed.  All mutations are committed by the single `db.session.commit()` at
the end: any `ValueError` on the way leaves the relational store unchanged
(the session is rolled back at teardown), though files already written stay
on disk. -/
def employee_edit_core (empId : Nat) (emp : Employee) (form : EmpForm)
    (hd : Option MyDate) (now : Nat) (db : DB) (fs : FS) : OpResult :=
  let cvStep : FS × Except AppError (Option String) :=
    match form.cv_file with
    | some c => if c.filename = "" then (fs, .ok none) else save_file (some c) "cv" fs
    | none => (fs, .ok none)
  match cvStep with
  | (fs₁, .error e) => ⟨db, fs₁, [], .error e⟩
  | (fs₁, .ok cvName) =>
    let emp' : Employee :=
      { emp with
        name := pyStrip form.name
        specialty := pyStrip form.specialty
        hire_date := hd
        qualification := pyStrip form.qualification
        courses := pyStrip form.courses
        experience := pyStrip form.experience
        certificates_text := pyStrip form.certificates_text
        cv_filename := match cvName with | some r => some r | none => emp.cv_filename
        updated_at := now }
    let label := form.attachment_label.getD defaultLabel
    let r := processAttachments empId label now form.attachments fs₁ db.nextFileId
    match r.2.2.2 with
    | some e => ⟨db, r.1, [], .error e⟩
    | none =>
      ⟨{ db with
          employees := db.employees.map (fun e => if e.id == empId then emp' else e)
          files := db.files ++ r.2.1
          nextFileId := r.2.2.1 },
        r.1, [], .ok empId⟩

/-- `employee_edit` (POST branch) from `app.py`: `get_or_404` first, then the
same field-copy semantics as create, except that `hire_date` keeps its stored
value when the field is absent or unparsable, a new CV replaces
`cv_filename`, and attachments are appended. -/
def employee_edit (empId : Nat) (form : EmpForm) (now : Nat) (db : DB) (fs : FS) : OpResult :=
  match db.employees.find? (fun e => e.id == empId) with
  | none => ⟨db, fs, [], .error .notFound⟩
  | some emp =>
    let pd := applyDate emp.hire_date form.hire_date
    let r := employee_edit_core empId emp form pd.1 now db fs
    { r with warnings := pd.2 ++ r.warnings }

/-- `employee_delete` from `app.py`: `get_or_404`, then `db.session.delete`
with the `cascade="all, delete-orphan"` relationship removing every
`EmployeeFile` row of the employee in the same transaction. -/
def employee_delete (empId : Nat) (db : DB) : DB × Except AppError Unit :=
  if db.employees.any (fun e => e.id == empId) then
    ({ db with
        employees := db.employees.filter (fun e => !(e.id == empId))
        files := db.files.filter (fun f => !(f.employee_id == empId)) },
      .ok ())
  else (db, .error .notFound)

/-- `delete_file` from `app.py` (the delete-attachment operation):
`EmployeeFile.query.filter_by(id=file_id, employee_id=emp_id).first_or_404()`
then deletion of that row. -/
def delete_file (empId fileId : Nat) (db : DB) : DB × Except AppError Unit :=
  match db.files.find? (fun f => f.id == fileId && f.employee_id == empId) with
  | none => (db, .error .notFound)
  | some _ => ({ db with files := db.files.filter (fun f => !(f.id == fileId)) }, .ok ())

/-- ASCII lowering of a character list (SQLite's `lower()`, applied by
`ilike` to both operands, folds only `A`-`Z`, exactly like `Char.toLower`). -/
def lowerL (l : List Char) : List Char := l.map Char.toLower

/-- All suffixes of a list, longest first. -/
def allSuffixes : List Char → List (List Char)
  | [] => [[]]
  | c :: cs => (c :: cs) :: allSuffixes cs

/-- SQL `LIKE` pattern matching as implemented by SQLite: `%` matches any
(possibly empty) run — i.e. the rest of the pattern may resume at any suffix
of the text — `_` matches exactly one character, anything else matches
itself; the whole text must be consumed. -/
def likeMatch : List Char → List Char → Bool
  | [], t => t.isEmpty
  | c :: ps, t =>
    if c = '%' then (allSuffixes t).any (fun s => likeMatch ps s)
    else
      match t with
      | [] => false
      | d :: ts => if c = '_' then likeMatch ps ts else c == d && likeMatch ps ts

/-- SQLAlchemy `column.ilike(pattern)` on SQLite:
`lower(column) LIKE lower(pattern)`. -/
def ilike (text pattern : String) : Bool :=
  likeMatch (lowerL pattern.data) (lowerL text.data)

/-- Stable insertion (newest first) used to model `ORDER BY created_at DESC`:
`e` is placed before the first element not newer than it, so that among equal
timestamps earlier list elements stay first. -/
def insertDesc (e : Employee) : List Employee → List Employee
  | [] => [e]
  | x :: xs => if x.created_at ≤ e.created_at then e :: x :: xs else x :: insertDesc e xs

/-- `ORDER BY created_at DESC` over the insertion-ordered table, modelled as
a stable descending insertion sort. -/
def sortByCreatedDesc : List Employee → List Employee
  | [] => []
  | e :: es => insertDesc e (sortByCreatedDesc es)

/-- `dashboard` (the list/search operation) from `app.py`: optional filter
`q` over name or qualification and optional filter `specialty`, both applied
as `ilike(f"%{x}%")`, result ordered newest first. -/
def dashboard (db : DB) (qRaw specialtyRaw : String) : List Employee :=
  let q := pyStrip qRaw
  let specialty := pyStrip specialtyRaw
  let l₁ :=
    if q = "" then db.employees
    else db.employees.filter (fun e =>
      ilike e.name ("%" ++ q ++ "%") || ilike e.qualification ("%" ++ q ++ "%"))
  let l₂ :=
    if specialty = "" then l₁
    else l₁.filter (fun e => ilike e.specialty ("%" ++ specialty ++ "%"))
  sortByCreatedDesc l₂

/-- Contiguous containment of `n` in a list: `n` is a prefix of some suffix. -/
def infixOfB (n : List Char) : List Char → Bool
  | [] => n.isEmpty
  | c :: cs => n.isPrefixOf (c :: cs) || infixOfB n cs

/-- Case-insensitive substring containment, as the spec words it: the
lowercased needle occurs contiguously in the lowercased haystack. -/
def ciContains (haystack needle : String) : Bool :=
  infixOfB (lowerL needle.data) (lowerL haystack.data)

/-- The spec-side description of the search filter: name or qualification
contains `q` (absent filter: no constraint), and specialty contains `sp`. -/
def searchPred (q sp : String) (e : Employee) : Bool :=
  ((q == "") || ciContains e.name q || ciContains e.qualification q) &&
    ((sp == "") || ciContains e.specialty sp)

/-- A filter string free of SQL `LIKE` wildcard characters. -/
def noWild (s : String) : Bool := s.data.all (fun c => !(c == '%') && !(c == '_'))

/-- The session state relevant to the Access Guard (`session["logged_in"]`). -/
structure Session where
  logged_in : Bool
deriving DecidableEq, Repr

/-- The POST branch of `login` from `app.py`: both submitted fields are
stripped and compared to the configured credentials; on success
`session["logged_in"] = True`, otherwise the session is left as it was. -/
def login_post (adminUser adminPass : String) (username password : String)
    (s : Session) : Session :=
  if pyStrip username == adminUser && pyStrip password == adminPass then
    { logged_in := true }
  else s

/-- A requested `/files/<path:relpath>` value, as a path: an absoluteness
flag plus segments (a segment may be `".."`; `pathlib` drops `"."` and empty
segments, which `resolveSegs` also ignores). -/
structure ReqPath where
  isAbs : Bool
  segs : List String
deriving DecidableEq, Repr

/-- Lexical `Path.resolve()` over an absolute path given by its segments
(no symlinks): `".."` pops one segment, and at the filesystem root it stays
at the root (`dropLast [] = []`). -/
def resolveSegs (segs : List String) : List String :=
  segs.foldl
    (fun acc s =>
      if s = "" || s = "." then acc
      else if s = ".." then acc.dropLast
      else acc ++ [s])
    []

/-- `serve_file` from `app.py`: `target = uploads / rel` (an absolute `rel`
replaces `uploads`), abort 403 unless
`target.resolve().relative_to(uploads.resolve())` succeeds, i.e. unless the
resolved upload root is a prefix of the resolved target; then abort 404 when
the target does not exist.  `root` is the upload folder's segments and
`fsx` the set of existing (resolved) paths on disk. -/
def serve_file (root : List String) (fsx : List (List String)) (p : ReqPath) :
    Except AppError (List String) :=
  let target := if p.isAbs then p.segs else root ++ p.segs
  let rt := resolveSegs target
  if (resolveSegs root).isPrefixOf rt then
    if fsx.contains rt then .ok rt else .error .notFound
  else .error .accessDenied

/-- Concrete data used by the claim witnesses and counterexamples. -/
def rtForm : EmpForm := ⟨"Z", "", "", "", "", "", "", none, [⟨"a.pdf"⟩, ⟨"b.png"⟩], none⟩

def rtDB : DB := (employee_new rtForm 0 ⟨[], [], 1, 1⟩ []).db

def emptyForm : EmpForm := ⟨"N", "", "", "", "", "", "", some ⟨""⟩, [⟨""⟩], none⟩

def oneEmpDB : DB := ⟨[⟨7, "E", "", none, "", "", "", "", some "cv/old.pdf", 0, 0⟩], [], 8, 1⟩

def badAttForm : EmpForm := ⟨"Y", "", "", "", "", "", "", none, [⟨"x.exe"⟩], none⟩

def preDateDB : DB := ⟨[⟨1, "A", "", some ⟨2020, 1, 1⟩, "", "", "", "", none, 0, 0⟩], [], 2, 1⟩

def badDateForm : EmpForm := ⟨"A", "", "", "", "", "", "31-12-2021", none, [], none⟩

def collisionFS : FS := [("docs", "report.pdf")]

def wildBob : Employee := ⟨1, "Bob", "", none, "", "", "", "", none, 0, 0⟩

def searchDB : DB :=
  ⟨[⟨1, "Alice", "HR", none, "BSc", "", "", "", none, 0, 0⟩,
    ⟨2, "Bob", "IT", none, "MSc", "", "", "", none, 1, 1⟩], [], 3, 1⟩

theorem contains_iff_mem' {α : Type} [BEq α] [LawfulBEq α] {a : α} {l : List α} :
    l.contains a = true ↔ a ∈ l := by
  simp [List.contains, List.elem_iff]

/-- C1: the file-retrieval operation rejects with `AccessDenied` every request
whose resolved target escapes the resolved store root — whatever the
filesystem contents, so regardless of whether a file exists there — and fails
with `NotFound` for a request that stays inside the root but names no
existing file. -/
theorem serve_file_traversal_safe (root : List String) (fsx : List (List String))
    (p : ReqPath) :
    (¬ resolveSegs root <+: resolveSegs (if p.isAbs then p.segs else root ++ p.segs) →
      serve_file root fsx p = .error .accessDenied) ∧
    (resolveSegs root <+: resolveSegs (if p.isAbs then p.segs else root ++ p.segs) →
      resolveSegs (if p.isAbs then p.segs else root ++ p.segs) ∉ fsx →
      serve_file root fsx p = .error .notFound) := by
  constructor
  · intro h
    unfold serve_file
    rw [if_neg]
    exact fun hc => h (List.isPrefixOf_iff_prefix.mp hc)
  · intro h hmem
    unfold serve_file
    rw [if_pos (List.isPrefixOf_iff_prefix.mpr h), if_neg]
    exact fun hc => hmem (contains_iff_mem'.mp hc)

theorem serve_file_traversal_safe_witness :
    (¬ resolveSegs ["srv", "up"] <+:
        resolveSegs (["srv", "up"] ++ ["..", "..", "etc", "passwd"])) ∧
    serve_file ["srv", "up"] [["etc", "passwd"]] ⟨false, ["..", "..", "etc", "passwd"]⟩ =
      .error .accessDenied :=
  ⟨by decide,
   (serve_file_traversal_safe ["srv", "up"] [["etc", "passwd"]]
      ⟨false, ["..", "..", "etc", "passwd"]⟩).1 (by decide)⟩

/-- C2: deleting a present employee succeeds and removes both the `Employee`
row and every `EmployeeFile` row referencing it in the same operation;
afterwards the delete-attachment lookup of any of the removed file ids yields
`NotFound` and changes nothing. -/
theorem employee_delete_cascades (db : DB) (empId : Nat)
    (h : db.employees.any (fun e => e.id == empId) = true) :
    (employee_delete empId db).2 = .ok () ∧
    (∀ e ∈ (employee_delete empId db).1.employees, e.id ≠ empId) ∧
    (∀ f ∈ (employee_delete empId db).1.files, f.employee_id ≠ empId) ∧
    (∀ f ∈ db.files, f.employee_id = empId →
      delete_file empId f.id (employee_delete empId db).1 =
        ((employee_delete empId db).1, .error .notFound)) := by
  unfold employee_delete
  rw [if_pos h]
  refine ⟨rfl, ?_, ?_, ?_⟩
  · intro e he
    have := (List.mem_filter.mp he).2
    simpa using this
  · intro f hf
    have := (List.mem_filter.mp hf).2
    simpa using this
  · intro f _ hfe
    have hnone :
        (db.files.filter (fun g => !(g.employee_id == empId))).find?
          (fun g => g.id == f.id && g.employee_id == empId) = none := by
      rw [List.find?_eq_none]
      intro g hg
      have h2 := (List.mem_filter.mp hg).2
      simp only [Bool.not_eq_true', beq_eq_false_iff_ne, ne_eq] at h2
      simp [h2]
    simp [delete_file, hnone]

theorem employee_delete_cascades_witness :
    rtDB.employees.any (fun e => e.id == 1) = true ∧
    ((employee_delete 1 rtDB).2 = .ok () ∧
      (∀ e ∈ (employee_delete 1 rtDB).1.employees, e.id ≠ 1) ∧
      (∀ f ∈ (employee_delete 1 rtDB).1.files, f.employee_id ≠ 1) ∧
      (∀ f ∈ rtDB.files, f.employee_id = 1 →
        delete_file 1 f.id (employee_delete 1 rtDB).1 =
          ((employee_delete 1 rtDB).1, .error .notFound))) :=
  ⟨by decide, employee_delete_cascades rtDB 1 (by decide)⟩

/-- C9 counterexample: the session moves from Anonymous to Authenticated on a
submitted pair that does not match the configured credentials exactly — the
code strips surrounding whitespace first. -/
theorem login_exact_match_counterexample :
    login_post "admin" "admin123" " admin" "admin123" ⟨false⟩ = ⟨true⟩ ∧
    (" admin", "admin123") ≠ ("admin", "admin123") := by decide

/-- C9 (amended): the Anonymous → Authenticated transition succeeds exactly
when the submitted username and password, each stripped of surrounding
whitespace, both equal the configured admin credentials; any other submission
leaves the session Anonymous. -/
theorem login_iff_stripped_match (adminUser adminPass username password : String) :
    ((login_post adminUser adminPass username password ⟨false⟩).logged_in = true ↔
      (pyStrip username = adminUser ∧ pyStrip password = adminPass)) ∧
    (login_post adminUser adminPass username password ⟨false⟩ = ⟨false⟩ ↔
      ¬(pyStrip username = adminUser ∧ pyStrip password = adminPass)) := by
  unfold login_post
  by_cases h : pyStrip username = adminUser ∧ pyStrip password = adminPass
  · obtain ⟨h1, h2⟩ := h
    simp [h1, h2]
  · rw [if_neg]
    · simp [h]
    · simp only [Bool.and_eq_true, beq_iff_eq]
      exact h

theorem processAttachments_empty (empId : Nat) (label : String) (now : Nat) :
    ∀ (atts : List FileStorage) (fs : FS) (nid : Nat), (∀ f ∈ atts, f.filename = "") →
      processAttachments empId label now atts fs nid = (fs, [], nid, none) := by
  intro atts
  induction atts with
  | nil => intro fs nid _; rfl
  | cons f rest ih =>
    intro fs nid h
    have hf : f.filename = "" := h f (by simp)
    simp only [processAttachments, hf, if_pos]
    exact ih fs nid (fun g hg => h g (by simp [hg]))

theorem processAttachments_bad (empId : Nat) (label : String) (now : Nat) :
    ∀ (atts : List FileStorage) (fs : FS) (nid : Nat),
      (∃ f ∈ atts, f.filename ≠ "" ∧ allowed_file f.filename = false) →
      (processAttachments empId label now atts fs nid).2.2.2 =
        some (.validation badTypeMsg) := by
  intro atts
  induction atts with
  | nil =>
    rintro fs nid ⟨f, hf, -⟩
    cases hf
  | cons g rest ih =>
    rintro fs nid ⟨f, hf, hne, hnall⟩
    by_cases hg : g.filename = ""
    · have hfr : f ∈ rest := by
        rcases List.mem_cons.mp hf with h | h
        · exact absurd (h ▸ hg) hne
        · exact h
      simp only [processAttachments, hg, if_pos]
      exact ih fs nid ⟨f, hfr, hne, hnall⟩
    · by_cases hga : allowed_file g.filename
      · have hfr : f ∈ rest := by
          rcases List.mem_cons.mp hf with h | h
          · rw [h] at hnall; rw [hnall] at hga; cases hga
          · exact h
        simp only [processAttachments, hg, if_neg, save_file, hga, if_true, ite_false]
        exact ih _ _ ⟨f, hfr, hne, hnall⟩
      · simp [processAttachments, hg, save_file, hga]

theorem save_file_ok_of_allowed (c : FileStorage) (sub : String) (fs : FS)
    (hne : ¬ c.filename = "") (ha : allowed_file c.filename = true) :
    save_file (some c) sub fs =
      ((sub, uniquify ((fs.filter (fun p => p.1 == sub)).map (fun p => p.2))
          (secure_filename c.filename)) :: fs,
        .ok (some (sub ++ "/" ++
          uniquify ((fs.filter (fun p => p.1 == sub)).map (fun p => p.2))
            (secure_filename c.filename)))) := by
  simp [save_file, hne, ha]

/-- C10: a missing file or an empty original filename makes `save_file` return
`None` without error and without writing anything, and a create/update built
only from such inputs leaves `cv_filename` unset (create) or unchanged
(update), adds no `EmployeeFile` row, writes nothing and succeeds. -/
theorem save_file_skips_empty (sub : String) (fs : FS) (form : EmpForm) (now : Nat)
    (db : DB)
    (hcv : match form.cv_file with | none => True | some c => c.filename = "")
    (hatts : ∀ f ∈ form.attachments, f.filename = "") :
    save_file none sub fs = (fs, .ok none) ∧
    (∀ g : FileStorage, g.filename = "" → save_file (some g) sub fs = (fs, .ok none)) ∧
    ((employee_new form now db fs).fs = fs ∧
      (employee_new form now db fs).db.files = db.files ∧
      (∃ e ∈ (employee_new form now db fs).db.employees,
        e.id = db.nextEmpId ∧ e.cv_filename = none) ∧
      (employee_new form now db fs).outcome = .ok db.nextEmpId) ∧
    (∀ empId emp, db.employees.find? (fun e => e.id == empId) = some emp →
      (employee_edit empId form now db fs).fs = fs ∧
      (employee_edit empId form now db fs).db.files = db.files ∧
      (∃ e ∈ (employee_edit empId form now db fs).db.employees,
        e.id = empId ∧ e.cv_filename = emp.cv_filename) ∧
      (employee_edit empId form now db fs).outcome = .ok empId) := by
  have hpa := processAttachments_empty db.nextEmpId (form.attachment_label.getD defaultLabel)
    now form.attachments fs db.nextFileId hatts
  refine ⟨rfl, fun g hg => by simp [save_file, hg], ?_, ?_⟩
  · have hcv' : (match form.cv_file with
        | some c => if c.filename = "" then (fs, Except.ok none) else save_file (some c) "cv" fs
        | none => (fs, Except.ok (α := Option String) none)) = (fs, .ok none) := by
      rcases hc : form.cv_file with - | c
      · rfl
      · rw [hc] at hcv
        simp only [hc]
        simp [hcv]
    simp only [employee_new, employee_create_core, hcv', hpa]
    refine ⟨by simp, by simp, ?_, by simp⟩
    refine ⟨_, List.mem_append_right _ (List.mem_singleton_self _), ?_, ?_⟩ <;> rfl
  · intro empId emp hfind
    have hbeq : (emp.id == empId) = true := by
      have := List.find?_some hfind
      simpa using this
    have hmem : emp ∈ db.employees := List.mem_of_find?_eq_some hfind
    have hpa' := processAttachments_empty empId (form.attachment_label.getD defaultLabel)
      now form.attachments fs db.nextFileId hatts
    have hcv' : (match form.cv_file with
        | some c => if c.filename = "" then (fs, Except.ok none) else save_file (some c) "cv" fs
        | none => (fs, Except.ok (α := Option String) none)) = (fs, .ok none) := by
      rcases hc : form.cv_file with - | c
      · rfl
      · rw [hc] at hcv
        simp only [hc]
        simp [hcv]
    simp only [employee_edit, hfind, employee_edit_core, hcv', hpa']
    refine ⟨by simp, by simp, ?_, by simp⟩
    refine ⟨_, List.mem_map_of_mem _ hmem, ?_⟩
    rw [if_pos hbeq]
    exact ⟨by simpa using hbeq, by simp⟩

/-- C8: a create request carrying an attachment with a disallowed extension
fails with the `ValueError` from `save_file`, yet the new `Employee` row has
already been committed and remains in the store, and no `EmployeeFile` row is
added for that request. -/
theorem create_bad_attachment_keeps_employee (form : EmpForm) (now : Nat) (db : DB) (fs : FS)
    (hcv : match form.cv_file with
           | none => True
           | some c => c.filename = "" ∨ allowed_file c.filename = true)
    (hbad : ∃ f ∈ form.attachments, f.filename ≠ "" ∧ allowed_file f.filename = false) :
    (employee_new form now db fs).outcome = .error (.validation badTypeMsg) ∧
    (∃ e ∈ (employee_new form now db fs).db.employees,
      e.id = db.nextEmpId ∧ e.name = pyStrip form.name) ∧
    (employee_new form now db fs).db.files = db.files := by
  have hbadpa := fun fs' => processAttachments_bad db.nextEmpId
    (form.attachment_label.getD defaultLabel) now form.attachments fs' db.nextFileId hbad
  have hcv' : ∃ fs₁ cvName, (match form.cv_file with
      | some c => if c.filename = "" then (fs, Except.ok none) else save_file (some c) "cv" fs
      | none => (fs, Except.ok (α := Option String) none)) = (fs₁, .ok cvName) := by
    rcases hc : form.cv_file with - | c
    · exact ⟨fs, none, rfl⟩
    · rw [hc] at hcv
      rcases hcv with hcv | hcv
      · exact ⟨fs, none, by simp [hcv]⟩
      · by_cases he : c.filename = ""
        · exact ⟨fs, none, by simp [he]⟩
        · exact ⟨_, _, by
            simp only [he, ite_false, save_file_ok_of_allowed c "cv" fs he hcv]
            rfl⟩
  obtain ⟨fs₁, cvName, hcveq⟩ := hcv'
  simp only [employee_new, employee_create_core, hcveq, hbadpa fs₁]
  refine ⟨by simp, ?_, by simp⟩
  refine ⟨_, List.mem_append_right _ (List.mem_singleton_self _), ?_, ?_⟩ <;> rfl

/-- C5: the non-empty-name invariant fails on the code: a create request whose
submitted name is a single space (which even passes the client-side `required`
check) succeeds, persisting an employee whose stored name is the empty
string. -/
theorem create_accepts_blank_name :
    (employee_new ⟨" ", "", "", "", "", "", "", none, [], none⟩ 0 ⟨[], [], 1, 1⟩ []).outcome =
      .ok 1 ∧
    ∃ e ∈ (employee_new ⟨" ", "", "", "", "", "", "", none, [], none⟩ 0
        ⟨[], [], 1, 1⟩ []).db.employees,
      e.name = "" := by decide

theorem save_file_skips_empty_witness :
    (∀ f ∈ [(⟨""⟩ : FileStorage)], f.filename = "") ∧
    (employee_new emptyForm 0 oneEmpDB []).outcome = .ok 8 ∧
    (employee_edit 7 emptyForm 0 oneEmpDB []).outcome = .ok 7 :=
  ⟨by decide,
   (save_file_skips_empty "cv" [] emptyForm 0 oneEmpDB (by exact rfl) (by decide)).2.2.1.2.2.2,
   ((save_file_skips_empty "cv" [] emptyForm 0 oneEmpDB (by exact rfl) (by decide)).2.2.2 7
      ⟨7, "E", "", none, "", "", "", "", some "cv/old.pdf", 0, 0⟩ (by decide)).2.2.2⟩

theorem create_bad_attachment_keeps_employee_witness :
    (∃ f ∈ badAttForm.attachments, f.filename ≠ "" ∧ allowed_file f.filename = false) ∧
    (employee_new badAttForm 0 ⟨[], [], 1, 1⟩ []).outcome = .error (.validation badTypeMsg) ∧
    (∃ e ∈ (employee_new badAttForm 0 ⟨[], [], 1, 1⟩ []).db.employees,
      e.id = 1 ∧ e.name = pyStrip "Y") ∧
    (employee_new badAttForm 0 ⟨[], [], 1, 1⟩ []).db.files = [] :=
  ⟨by decide,
   (create_bad_attachment_keeps_employee badAttForm 0 ⟨[], [], 1, 1⟩ [] (by trivial) (by decide)).1,
   (create_bad_attachment_keeps_employee badAttForm 0 ⟨[], [], 1, 1⟩ [] (by trivial) (by decide)).2.1,
   (create_bad_attachment_keeps_employee badAttForm 0 ⟨[], [], 1, 1⟩ [] (by trivial) (by decide)).2.2⟩

/-- C6 (amended): when the submitted `hire_date` string is non-empty but
rejected by the date parser (strptime with `%Y-%m-%d`, which also accepts
unpadded month and day numbers), create and update behave exactly as if no
`hire_date` had been submitted — so the operation does not abort, `hire_date`
stays unset on create and retains its stored value on update, and every other
submitted field is processed as usual — except that the non-fatal warning is
additionally surfaced to the caller. -/
theorem invalid_hire_date_is_nonfatal (form : EmpForm) (now : Nat) (db : DB) (fs : FS)
    (h1 : form.hire_date ≠ "") (h2 : parse_date form.hire_date = none) :
    (employee_new form now db fs =
      { employee_new { form with hire_date := "" } now db fs with
        warnings := hireDateWarning ::
          (employee_new { form with hire_date := "" } now db fs).warnings }) ∧
    (∀ empId emp, db.employees.find? (fun e => e.id == empId) = some emp →
      employee_edit empId form now db fs =
        { employee_edit empId { form with hire_date := "" } now db fs with
          warnings := hireDateWarning ::
            (employee_edit empId { form with hire_date := "" } now db fs).warnings }) := by
  obtain ⟨n, sp, qu, co, ex, ce, hd, cv, att, lb⟩ := form
  have had : ∀ old, applyDate old hd = (old, [hireDateWarning]) := by
    intro old
    simp only [applyDate, if_neg h1]
    rw [h2]
  constructor
  · simp only [employee_new, had]
    rfl
  · intro empId emp hfind
    simp only [employee_edit, hfind, had]
    rfl

/-- C6 counterexample: an update whose `hire_date` field is non-empty and
unparsable succeeds with the warning, but the resulting record's `hire_date`
is not unset — it keeps its previously stored value. -/
theorem invalid_hire_date_counterexample :
    parse_date "31-12-2021" = none ∧
    (employee_edit 1 badDateForm 5 preDateDB []).warnings = [hireDateWarning] ∧
    (employee_edit 1 badDateForm 5 preDateDB []).outcome = .ok 1 ∧
    ∃ e ∈ (employee_edit 1 badDateForm 5 preDateDB []).db.employees,
      e.hire_date = some ⟨2020, 1, 1⟩ := by decide

theorem invalid_hire_date_witness :
    ("31-12-2021" ≠ "" ∧ parse_date "31-12-2021" = none) ∧
    employee_new badDateForm 0 preDateDB [] =
      { employee_new { badDateForm with hire_date := "" } 0 preDateDB [] with
        warnings := hireDateWarning ::
          (employee_new { badDateForm with hire_date := "" } 0 preDateDB []).warnings } ∧
    employee_edit 1 badDateForm 0 preDateDB [] =
      { employee_edit 1 { badDateForm with hire_date := "" } 0 preDateDB [] with
        warnings := hireDateWarning ::
          (employee_edit 1 { badDateForm with hire_date := "" } 0 preDateDB []).warnings } :=
  ⟨⟨by decide, by decide⟩,
   (invalid_hire_date_is_nonfatal badDateForm 0 preDateDB [] (by decide) (by decide)).1,
   (invalid_hire_date_is_nonfatal badDateForm 0 preDateDB [] (by decide) (by decide)).2 1
     ⟨1, "A", "", some ⟨2020, 1, 1⟩, "", "", "", "", none, 0, 0⟩ (by decide)⟩

theorem extAfterLastDot_eq_none_iff (l : List Char) : extAfterLastDot l = none ↔ '.' ∉ l := by
  induction l with
  | nil => simp [extAfterLastDot]
  | cons c cs ih =>
    simp only [extAfterLastDot]
    cases h : extAfterLastDot cs with
    | some e =>
      have : '.' ∈ cs := by
        by_contra hn
        rw [ih.mpr hn] at h
        cases h
      simp [this]
    | none =>
      by_cases hc : c = '.'
      · simp [hc]
      · rw [if_neg hc]
        constructor
        · intro _
          simp only [List.mem_cons, not_or]
          exact ⟨fun h' => hc h'.symm, ih.mp h⟩
        · intro _
          rfl

theorem extAfterLastDot_eq_some_iff (l e : List Char) :
    extAfterLastDot l = some e ↔ ('.' ∉ e ∧ ∃ pre, l = pre ++ '.' :: e) := by
  induction l with
  | nil =>
    simp [extAfterLastDot]
  | cons c cs ih =>
    constructor
    · intro h
      simp only [extAfterLastDot] at h
      cases hc : extAfterLastDot cs with
      | some e' =>
        rw [hc] at h
        cases h
        obtain ⟨hnd, pre, hpre⟩ := ih.mp hc
        exact ⟨hnd, c :: pre, by simp [hpre]⟩
      | none =>
        rw [hc] at h
        by_cases hdot : c = '.'
        · rw [if_pos hdot] at h
          injection h with he
          exact ⟨he ▸ (extAfterLastDot_eq_none_iff cs).mp hc, [], by simp [hdot, he]⟩
        · rw [if_neg hdot] at h
          cases h
    · rintro ⟨hnd, pre, hpre⟩
      cases pre with
      | nil =>
        simp only [List.nil_append] at hpre
        injection hpre with hc hcs
        subst hc
        subst hcs
        simp [extAfterLastDot, (extAfterLastDot_eq_none_iff cs).mpr hnd]
      | cons p pre' =>
        simp only [List.cons_append] at hpre
        injection hpre with hc hcs
        subst hc
        simp only [extAfterLastDot, ih.mpr ⟨hnd, pre', hcs⟩]

theorem allowed_file_iff (fname : String) :
    allowed_file fname = true ↔
      ∃ e pre, fname.data = pre ++ '.' :: e ∧ '.' ∉ e ∧
        (⟨e.map Char.toLower⟩ : String) ∈ allowedExtensions := by
  unfold allowed_file
  cases h : extAfterLastDot fname.data with
  | none =>
    have hnd := (extAfterLastDot_eq_none_iff fname.data).mp h
    simp only [Bool.false_eq_true, false_iff]
    rintro ⟨e, pre, hsplit, -, -⟩
    exact hnd (by rw [hsplit]; simp)
  | some e =>
    obtain ⟨hnd, pre, hpre⟩ := (extAfterLastDot_eq_some_iff fname.data e).mp h
    constructor
    · intro hmem
      exact ⟨e, pre, hpre, hnd, contains_iff_mem'.mp hmem⟩
    · rintro ⟨e', pre', hsplit', hnd', hmem'⟩
      have : extAfterLastDot fname.data = some e' :=
        (extAfterLastDot_eq_some_iff fname.data e').mpr ⟨hnd', pre', hsplit'⟩
      rw [h] at this
      cases this
      exact contains_iff_mem'.mpr hmem'

/-- C7: for every non-empty original filename, `save_file` raises the
`ValidationError` exactly when the filename has no extension in the allow-list
{pdf, doc, docx, png, jpg, jpeg, webp, xlsx, xls} — the extension being the
part after the last dot, compared case-insensitively, a dotless name having
none — and when it raises, nothing is written to the file store. -/
theorem save_file_rejects_disallowed (fname sub : String) (fs : FS)
    (hne : fname ≠ "") :
    ((save_file (some ⟨fname⟩) sub fs).2 = .error (.validation badTypeMsg) ↔
      ¬ ∃ e pre, fname.data = pre ++ '.' :: e ∧ '.' ∉ e ∧
        (⟨e.map Char.toLower⟩ : String) ∈ allowedExtensions) ∧
    ((save_file (some ⟨fname⟩) sub fs).2 = .error (.validation badTypeMsg) →
      (save_file (some ⟨fname⟩) sub fs).1 = fs) := by
  by_cases ha : allowed_file fname = true
  · constructor
    · rw [save_file_ok_of_allowed ⟨fname⟩ sub fs hne ha]
      simp only [false_iff, not_not]
      constructor
      · intro h
        cases h
      · intro h
        cases h ((allowed_file_iff fname).mp ha)
    · intro h
      rw [save_file_ok_of_allowed ⟨fname⟩ sub fs hne ha] at h
      cases h
  · have hsf : save_file (some ⟨fname⟩) sub fs = (fs, .error (.validation badTypeMsg)) := by
      simp [save_file, hne, ha]
    rw [hsf]
    refine ⟨?_, fun _ => rfl⟩
    simp only [true_iff]
    intro hex
    exact ha ((allowed_file_iff fname).mpr hex)

theorem save_file_rejects_disallowed_witness :
    ("virus.exe" ≠ "" ∧
      (save_file (some ⟨"virus.exe"⟩) "cv" [("cv", "a.pdf")]).2 =
        .error (.validation badTypeMsg)) ∧
    ((save_file (some ⟨"virus.exe"⟩) "cv" [("cv", "a.pdf")]).2 =
        .error (.validation badTypeMsg) →
      (save_file (some ⟨"virus.exe"⟩) "cv" [("cv", "a.pdf")]).1 = [("cv", "a.pdf")]) :=
  ⟨⟨by decide, by decide⟩,
   (save_file_rejects_disallowed "virus.exe" "cv" [("cv", "a.pdf")] (by decide)).2⟩

theorem digit_char_inj_fin :
    ∀ d e : Fin 10, Char.ofNat (48 + d.val) = Char.ofNat (48 + e.val) → d = e := by decide

theorem map_digit_char_inj :
    ∀ a b : List Nat, (∀ x ∈ a, x < 10) → (∀ x ∈ b, x < 10) →
      a.map (fun d => Char.ofNat (48 + d)) = b.map (fun d => Char.ofNat (48 + d)) → a = b := by
  intro a
  induction a with
  | nil =>
    intro b _ _ h
    cases b with
    | nil => rfl
    | cons y ys => cases h
  | cons x xs ih =>
    intro b ha hb h
    cases b with
    | nil => cases h
    | cons y ys =>
      simp only [List.map_cons] at h
      injection h with h1 h2
      have hx : x < 10 := ha x (by simp)
      have hy : y < 10 := hb y (by simp)
      have hfin : (⟨x, hx⟩ : Fin 10) = ⟨y, hy⟩ := digit_char_inj_fin ⟨x, hx⟩ ⟨y, hy⟩ h1
      have hxy : x = y := congrArg Fin.val hfin
      rw [hxy, ih ys (fun z hz => ha z (by simp [hz])) (fun z hz => hb z (by simp [hz])) h2]

theorem decRepr_ne_zero_str (m : Nat) (hm : m ≠ 0) : decRepr m ≠ "0" := by
  intro h
  rw [decRepr, if_neg hm] at h
  have h1 : ((Nat.digits 10 m).map (fun d => Char.ofNat (48 + d))).reverse = ['0'] :=
    congrArg String.data h
  have h2 : (Nat.digits 10 m).map (fun d => Char.ofNat (48 + d)) = ['0'] := by
    rw [← List.reverse_reverse ((Nat.digits 10 m).map (fun d => Char.ofNat (48 + d))), h1]
    rfl
  cases hd : Nat.digits 10 m with
  | nil => rw [hd] at h2; cases h2
  | cons d ds =>
    rw [hd] at h2
    cases ds with
    | cons d2 ds2 =>
      have := congrArg List.length h2
      simp at this
    | nil =>
      injection h2 with hc hrest
      have hdlt : d < 10 :=
        Nat.digits_lt_base (by norm_num) (hd ▸ List.mem_cons_self d [])
      have hd0 : d = 0 := by
        have hfin : (⟨d, hdlt⟩ : Fin 10) = ⟨0, by norm_num⟩ :=
          digit_char_inj_fin ⟨d, hdlt⟩ ⟨0, by norm_num⟩ (by simpa using hc)
        exact congrArg Fin.val hfin
      have hof := Nat.ofDigits_digits 10 m
      rw [hd, hd0] at hof
      simp [Nat.ofDigits] at hof
      exact hm hof.symm

theorem decRepr_injective : Function.Injective decRepr := by
  intro n m h
  by_cases hn : n = 0 <;> by_cases hm : m = 0
  · rw [hn, hm]
  · exfalso
    rw [hn] at h
    exact decRepr_ne_zero_str m hm (h.symm.trans (by rw [decRepr]; rfl))
  · exfalso
    rw [hm] at h
    exact decRepr_ne_zero_str n hn (h.trans (by rw [decRepr]; rfl))
  · rw [decRepr, if_neg hn, decRepr, if_neg hm] at h
    have hdata : ((Nat.digits 10 n).map (fun d => Char.ofNat (48 + d))).reverse =
        ((Nat.digits 10 m).map (fun d => Char.ofNat (48 + d))).reverse :=
      congrArg String.data h
    have h2 := congrArg List.reverse hdata
    simp only [List.reverse_reverse] at h2
    have h3 := map_digit_char_inj _ _
      (fun x hx => Nat.digits_lt_base (by norm_num) hx)
      (fun x hx => Nat.digits_lt_base (by norm_num) hx) h2
    have h4 := congrArg (Nat.ofDigits 10) h3
    rwa [Nat.ofDigits_digits, Nat.ofDigits_digits] at h4

theorem decRepr_length_pos (k : Nat) : 0 < (decRepr k).length := by
  by_cases hk : k = 0
  · rw [hk]; decide
  · rw [decRepr, if_neg hk]
    show 0 < (((Nat.digits 10 k).map (fun d => Char.ofNat (48 + d))).reverse).length
    simp only [List.length_reverse, List.length_map]
    exact List.length_pos.mpr (Nat.digits_ne_nil_iff_ne_zero.mpr hk)

theorem candidate_injective (stem suffix : String) :
    Function.Injective (candidate stem suffix) := by
  intro j k h
  unfold candidate at h
  have hund : ("_" : String).length = 1 := rfl
  by_cases hj : j = 0 <;> by_cases hk : k = 0
  · rw [hj, hk]
  · exfalso
    rw [if_pos hj, if_neg hk] at h
    have hlen := congrArg String.length h
    simp only [String.length_append] at hlen
    have := decRepr_length_pos k
    omega
  · exfalso
    rw [if_neg hj, if_pos hk] at h
    have hlen := congrArg String.length h
    simp only [String.length_append] at hlen
    have := decRepr_length_pos j
    omega
  · rw [if_neg hj, if_neg hk] at h
    have hdata := congrArg String.data h
    simp only [String.data_append, List.append_assoc] at hdata
    have h2 := List.append_cancel_left hdata
    have h3 := List.append_cancel_left h2
    have h4 := List.append_cancel_right h3
    exact decRepr_injective (String.ext h4)

theorem exists_candidate_free (taken : List String) (stem suffix : String) :
    ∃ k, k ≤ taken.length ∧ taken.contains (candidate stem suffix k) = false := by
  by_contra hall
  have hall' : ∀ k, k ≤ taken.length →
      taken.contains (candidate stem suffix k) = true := by
    intro k hk
    by_contra hc
    rw [Bool.not_eq_true] at hc
    exact hall ⟨k, hk, hc⟩
  have hnd : ((List.range (taken.length + 1)).map (candidate stem suffix)).Nodup :=
    List.Nodup.map (candidate_injective stem suffix) (List.nodup_range _)
  have hsub : ((List.range (taken.length + 1)).map (candidate stem suffix)) ⊆ taken := by
    intro x hx
    obtain ⟨k, hk, rfl⟩ := List.mem_map.mp hx
    exact contains_iff_mem'.mp (hall' k (Nat.lt_succ_iff.mp (List.mem_range.mp hk)))
  have hle := (List.subperm_of_subset hnd hsub).length_le
  simp only [List.length_map, List.length_range] at hle
  omega

theorem searchFrom_spec (taken : List String) (stem suffix : String) :
    ∀ fuel k : Nat,
      (∃ j, k ≤ j ∧ j < k + fuel ∧ taken.contains (candidate stem suffix j) = false) →
      ∃ j, k ≤ j ∧ searchFrom taken stem suffix fuel k = candidate stem suffix j ∧
        taken.contains (candidate stem suffix j) = false ∧
        ∀ i, k ≤ i → i < j → taken.contains (candidate stem suffix i) = true := by
  intro fuel
  induction fuel with
  | zero =>
    rintro k ⟨j, hkj, hlt, -⟩
    omega
  | succ fuel ih =>
    rintro k ⟨j, hkj, hlt, hfree⟩
    by_cases hk : taken.contains (candidate stem suffix k) = true
    · have hjk : j ≠ k := by
        intro h
        rw [h, hk] at hfree
        cases hfree
      obtain ⟨j', hk'j, heq, hfree', hall⟩ :=
        ih (k + 1) ⟨j, by omega, by omega, hfree⟩
      refine ⟨j', by omega, ?_, hfree', ?_⟩
      · rw [searchFrom, if_pos hk]
        exact heq
      · intro i hki hij
        rcases Nat.eq_or_lt_of_le hki with rfl | hlt'
        · exact hk
        · exact hall i hlt' hij
    · rw [Bool.not_eq_true] at hk
      refine ⟨k, Nat.le_refl k, ?_, hk, fun i h1 h2 => by omega⟩
      rw [searchFrom, if_neg (by rw [hk]; exact Bool.false_ne_true)]

theorem uniquify_spec (taken : List String) (base : String) :
    ∃ k, uniquify taken base = candidate (pathSplitExt base).1 (pathSplitExt base).2 k ∧
      taken.contains (candidate (pathSplitExt base).1 (pathSplitExt base).2 k) = false ∧
      ∀ i, i < k → taken.contains (candidate (pathSplitExt base).1 (pathSplitExt base).2 i) = true := by
  obtain ⟨j, hj, hfree⟩ := exists_candidate_free taken (pathSplitExt base).1 (pathSplitExt base).2
  obtain ⟨k, -, heq, hfree', hall⟩ :=
    searchFrom_spec taken (pathSplitExt base).1 (pathSplitExt base).2 (taken.length + 1) 0
      ⟨j, Nat.zero_le j, by omega, hfree⟩
  exact ⟨k, heq, hfree', fun i hi => hall i (Nat.zero_le i) hi⟩

theorem pathSplitExt_append (s : String) : (pathSplitExt s).1 ++ (pathSplitExt s).2 = s := by
  simp only [pathSplitExt]
  split
  · split
    · exact String.ext (by rw [String.data_append]; exact List.take_append_drop _ _)
    · exact String.ext (by rw [String.data_append]; simp)
  · exact String.ext (by rw [String.data_append]; simp)

theorem mem_subdirNames (sub name : String) (fs : FS) :
    name ∈ (fs.filter (fun p => p.1 == sub)).map (fun p => p.2) ↔ (sub, name) ∈ fs := by
  constructor
  · intro h
    obtain ⟨p, hp, hp2⟩ := List.mem_map.mp h
    obtain ⟨hpf, hps⟩ := List.mem_filter.mp hp
    obtain ⟨a, b⟩ := p
    simp only [beq_iff_eq] at hps
    subst hps
    subst hp2
    exact hpf
  · intro h
    exact List.mem_map.mpr ⟨(sub, name), List.mem_filter.mpr ⟨h, by simp⟩, rfl⟩

theorem uniquify_not_mem (taken : List String) (base : String) :
    uniquify taken base ∉ taken := by
  obtain ⟨k, heq, hfree, -⟩ := uniquify_spec taken base
  rw [heq]
  intro hmem
  rw [contains_iff_mem'.mpr hmem] at hfree
  cases hfree

/-- C3: when the sanitized name of an allowed upload collides with a file
already stored in the target subdirectory, `save_file` stores it under
`f"{stem}_{k}{suffix}"` for the lowest available integer `k ≥ 1` (every
smaller positive suffix being taken, and the chosen name being free);
consequently two uploads of the same original name to the same subdirectory
never overwrite each other: both succeed, the stored names differ, and both
files are present in the store afterwards. -/
theorem save_file_collision_suffix (fs : FS) (sub fname : String)
    (h1 : fname ≠ "") (h2 : allowed_file fname = true) :
    ((sub, secure_filename fname) ∈ fs →
      ∃ k, 1 ≤ k ∧
        save_file (some ⟨fname⟩) sub fs =
          ((sub, candidate (pathSplitExt (secure_filename fname)).1
              (pathSplitExt (secure_filename fname)).2 k) :: fs,
            .ok (some (sub ++ "/" ++ candidate (pathSplitExt (secure_filename fname)).1
              (pathSplitExt (secure_filename fname)).2 k))) ∧
        (sub, candidate (pathSplitExt (secure_filename fname)).1
            (pathSplitExt (secure_filename fname)).2 k) ∉ fs ∧
        (∀ j, 1 ≤ j → j < k →
          (sub, candidate (pathSplitExt (secure_filename fname)).1
              (pathSplitExt (secure_filename fname)).2 j) ∈ fs)) ∧
    (∃ n₁ n₂,
      (save_file (some ⟨fname⟩) sub fs).2 = .ok (some (sub ++ "/" ++ n₁)) ∧
      (save_file (some ⟨fname⟩) sub (save_file (some ⟨fname⟩) sub fs).1).2 =
        .ok (some (sub ++ "/" ++ n₂)) ∧
      n₁ ≠ n₂ ∧
      (sub, n₁) ∈ (save_file (some ⟨fname⟩) sub (save_file (some ⟨fname⟩) sub fs).1).1 ∧
      (sub, n₂) ∈ (save_file (some ⟨fname⟩) sub (save_file (some ⟨fname⟩) sub fs).1).1) := by
  have hok := save_file_ok_of_allowed ⟨fname⟩ sub fs h1 h2
  constructor
  · intro hcol
    obtain ⟨k, hku, hkfree, hkall⟩ :=
      uniquify_spec ((fs.filter (fun p => p.1 == sub)).map (fun p => p.2))
        (secure_filename fname)
    have hbase : candidate (pathSplitExt (secure_filename fname)).1
        (pathSplitExt (secure_filename fname)).2 0 = secure_filename fname := by
      rw [candidate, if_pos rfl]
      exact pathSplitExt_append (secure_filename fname)
    have hk1 : 1 ≤ k := by
      rcases Nat.eq_zero_or_pos k with rfl | hpos
      · exfalso
        rw [hbase] at hkfree
        have hct : ((fs.filter (fun p => p.1 == sub)).map (fun p => p.2)).contains
            (secure_filename fname) = true :=
          contains_iff_mem'.mpr ((mem_subdirNames sub (secure_filename fname) fs).mpr hcol)
        rw [hct] at hkfree
        cases hkfree
      · exact hpos
    refine ⟨k, hk1, ?_, ?_, ?_⟩
    · rw [hok, hku]
    · intro hmem
      have := (mem_subdirNames sub _ fs).mpr hmem
      rw [← contains_iff_mem'] at this
      rw [this] at hkfree
      cases hkfree
    · intro j _ hjk
      exact (mem_subdirNames sub _ fs).mp (contains_iff_mem'.mp (hkall j hjk))
  · have e1 : save_file (some ⟨fname⟩) sub fs =
        ((sub, uniquify ((fs.filter (fun p => p.1 == sub)).map (fun p => p.2))
            (secure_filename fname)) :: fs,
          .ok (some (sub ++ "/" ++
            uniquify ((fs.filter (fun p => p.1 == sub)).map (fun p => p.2))
              (secure_filename fname)))) :=
      save_file_ok_of_allowed ⟨fname⟩ sub fs h1 h2
    generalize hn1 : uniquify ((fs.filter (fun p => p.1 == sub)).map (fun p => p.2))
      (secure_filename fname) = n₁ at e1
    have e2 : save_file (some ⟨fname⟩) sub ((sub, n₁) :: fs) =
        ((sub, uniquify ((((sub, n₁) :: fs).filter (fun p => p.1 == sub)).map (fun p => p.2))
            (secure_filename fname)) :: (sub, n₁) :: fs,
          .ok (some (sub ++ "/" ++
            uniquify ((((sub, n₁) :: fs).filter (fun p => p.1 == sub)).map (fun p => p.2))
              (secure_filename fname)))) :=
      save_file_ok_of_allowed ⟨fname⟩ sub ((sub, n₁) :: fs) h1 h2
    generalize hn2 : uniquify ((((sub, n₁) :: fs).filter (fun p => p.1 == sub)).map
      (fun p => p.2)) (secure_filename fname) = n₂ at e2
    refine ⟨n₁, n₂, by rw [e1], by rw [e1, e2], ?_, ?_, ?_⟩
    · intro heq
      have hnm := uniquify_not_mem
        ((((sub, n₁) :: fs).filter (fun p => p.1 == sub)).map (fun p => p.2))
        (secure_filename fname)
      rw [hn2] at hnm
      apply hnm
      rw [← heq]
      exact (mem_subdirNames sub n₁ ((sub, n₁) :: fs)).mpr (List.mem_cons_self _ _)
    · rw [e1, e2]
      exact List.mem_cons_of_mem _ (List.mem_cons_self _ _)
    · rw [e1, e2]
      exact List.mem_cons_self _ _

theorem save_file_collision_suffix_witness :
    ("report.pdf" ≠ "" ∧ allowed_file "report.pdf" = true ∧
      ("docs", secure_filename "report.pdf") ∈ collisionFS) ∧
    (∃ k, 1 ≤ k ∧
      save_file (some ⟨"report.pdf"⟩) "docs" collisionFS =
        (("docs", candidate (pathSplitExt (secure_filename "report.pdf")).1
            (pathSplitExt (secure_filename "report.pdf")).2 k) :: collisionFS,
          .ok (some ("docs" ++ "/" ++ candidate (pathSplitExt (secure_filename "report.pdf")).1
            (pathSplitExt (secure_filename "report.pdf")).2 k))) ∧
      ("docs", candidate (pathSplitExt (secure_filename "report.pdf")).1
          (pathSplitExt (secure_filename "report.pdf")).2 k) ∉ collisionFS ∧
      (∀ j, 1 ≤ j → j < k →
        ("docs", candidate (pathSplitExt (secure_filename "report.pdf")).1
            (pathSplitExt (secure_filename "report.pdf")).2 j) ∈ collisionFS)) ∧
    (∃ n₁ n₂,
      (save_file (some ⟨"report.pdf"⟩) "docs" collisionFS).2 = .ok (some ("docs" ++ "/" ++ n₁)) ∧
      (save_file (some ⟨"report.pdf"⟩) "docs"
          (save_file (some ⟨"report.pdf"⟩) "docs" collisionFS).1).2 =
        .ok (some ("docs" ++ "/" ++ n₂)) ∧
      n₁ ≠ n₂ ∧
      ("docs", n₁) ∈ (save_file (some ⟨"report.pdf"⟩) "docs"
        (save_file (some ⟨"report.pdf"⟩) "docs" collisionFS).1).1 ∧
      ("docs", n₂) ∈ (save_file (some ⟨"report.pdf"⟩) "docs"
        (save_file (some ⟨"report.pdf"⟩) "docs" collisionFS).1).1) :=
  ⟨⟨by decide, by decide, by decide⟩,
   (save_file_collision_suffix collisionFS "docs" "report.pdf" (by decide) (by decide)).1
     (by decide),
   (save_file_collision_suffix collisionFS "docs" "report.pdf" (by decide) (by decide)).2⟩

theorem char_toNat_ofNat (n : Nat) (h : n.isValidChar) : (Char.ofNat n).toNat = n := by
  unfold Char.ofNat
  rw [dif_pos h]
  unfold Char.ofNatAux Char.toNat
  simp [UInt32.toNat]

theorem toLower_ne_wild (c : Char) (h : c ≠ '%' ∧ c ≠ '_') :
    Char.toLower c ≠ '%' ∧ Char.toLower c ≠ '_' := by
  by_cases hcond : c.toNat ≥ 65 ∧ c.toNat ≤ 90
  · have hlow : Char.toLower c = Char.ofNat (c.toNat + 32) := by
      unfold Char.toLower
      exact if_pos hcond
    rw [hlow]
    have hval : (c.toNat + 32).isValidChar := Or.inl (by omega)
    constructor <;> intro heq
    · have h2 := congrArg Char.toNat heq
      rw [char_toNat_ofNat _ hval] at h2
      have h37 : ('%' : Char).toNat = 37 := rfl
      omega
    · have h2 := congrArg Char.toNat heq
      rw [char_toNat_ofNat _ hval] at h2
      have h95 : ('_' : Char).toNat = 95 := rfl
      omega
  · have hlow : Char.toLower c = c := by
      unfold Char.toLower
      exact if_neg hcond
    rw [hlow]
    exact h

theorem noWild_lower (s : String) (h : noWild s = true) :
    ∀ c ∈ lowerL s.data, c ≠ '%' ∧ c ≠ '_' := by
  intro c hc
  obtain ⟨d, hd, rfl⟩ := List.mem_map.mp hc
  have hd2 := List.all_eq_true.mp h d hd
  simp only [Bool.and_eq_true, Bool.not_eq_true', beq_eq_false_iff_ne, ne_eq] at hd2
  exact toLower_ne_wild d hd2

theorem mem_allSuffixes (s t : List Char) : s ∈ allSuffixes t ↔ ∃ t₁, t = t₁ ++ s := by
  induction t with
  | nil =>
    simp only [allSuffixes, List.mem_singleton]
    constructor
    · rintro rfl
      exact ⟨[], rfl⟩
    · rintro ⟨t₁, heq⟩
      have := List.append_eq_nil.mp heq.symm
      exact this.2
  | cons c cs ih =>
    simp only [allSuffixes, List.mem_cons, ih]
    constructor
    · rintro (rfl | ⟨t₁, rfl⟩)
      · exact ⟨[], rfl⟩
      · exact ⟨c :: t₁, rfl⟩
    · rintro ⟨t₁, heq⟩
      cases t₁ with
      | nil =>
        left
        simpa using heq.symm
      | cons x xs =>
        right
        injection heq with h1 h2
        exact ⟨xs, h2⟩

theorem likeMatch_cons_eq (c : Char) (ps t : List Char) (hc1 : c ≠ '%') (hc2 : c ≠ '_') :
    likeMatch (c :: ps) t =
      (match t with | [] => false | d :: ts => c == d && likeMatch ps ts) := by
  cases t with
  | nil => rw [likeMatch.eq_2, if_neg hc1]
  | cons d ts => rw [likeMatch.eq_3, if_neg hc1, if_neg hc2]

theorem likeMatch_nil_eq (t : List Char) : likeMatch [] t = t.isEmpty := by
  rw [likeMatch.eq_1]

theorem likeMatch_lit (p : List Char) (hp : ∀ c ∈ p, c ≠ '%' ∧ c ≠ '_') :
    ∀ t, likeMatch p t = true ↔ p = t := by
  induction p with
  | nil =>
    intro t
    rw [likeMatch_nil_eq]
    cases t <;> simp
  | cons c ps ih =>
    intro t
    obtain ⟨hc1, hc2⟩ := hp c (by simp)
    rw [likeMatch_cons_eq c ps t hc1 hc2]
    cases t with
    | nil => simp
    | cons d ts =>
      rw [Bool.and_eq_true, beq_iff_eq, ih (fun x hx => hp x (by simp [hx])) ts]
      constructor
      · rintro ⟨rfl, rfl⟩
        rfl
      · intro h
        injection h with h1 h2
        exact ⟨h1, h2⟩

theorem likeMatch_pct (ps : List Char) :
    ∀ t, likeMatch ('%' :: ps) t = true ↔
      ∃ t₁ t₂, t = t₁ ++ t₂ ∧ likeMatch ps t₂ = true := by
  intro t
  have hstep : likeMatch ('%' :: ps) t = (allSuffixes t).any (fun s => likeMatch ps s) := by
    cases t with
    | nil => rw [likeMatch.eq_2, if_pos rfl]
    | cons d ts => rw [likeMatch.eq_3, if_pos rfl]
  rw [hstep, List.any_eq_true]
  constructor
  · rintro ⟨s, hs, hmatch⟩
    obtain ⟨t₁, rfl⟩ := (mem_allSuffixes s t).mp hs
    exact ⟨t₁, s, rfl, hmatch⟩
  · rintro ⟨t₁, t₂, rfl, h2⟩
    exact ⟨t₂, (mem_allSuffixes t₂ _).mpr ⟨t₁, rfl⟩, h2⟩

theorem likeMatch_lit_pct (p : List Char) (hp : ∀ c ∈ p, c ≠ '%' ∧ c ≠ '_') :
    ∀ t, likeMatch (p ++ ['%']) t = true ↔ ∃ t₂, t = p ++ t₂ := by
  induction p with
  | nil =>
    intro t
    simp only [List.nil_append]
    constructor
    · intro _
      exact ⟨t, rfl⟩
    · intro _
      refine (likeMatch_pct [] t).mpr ⟨t, [], by simp, ?_⟩
      rw [likeMatch_nil_eq]
      rfl
  | cons c ps ih =>
    intro t
    obtain ⟨hc1, hc2⟩ := hp c (by simp)
    rw [List.cons_append, likeMatch_cons_eq c (ps ++ ['%']) t hc1 hc2]
    cases t with
    | nil => simp
    | cons d ts =>
      rw [Bool.and_eq_true, beq_iff_eq, ih (fun x hx => hp x (by simp [hx])) ts]
      constructor
      · rintro ⟨rfl, t₂, rfl⟩
        exact ⟨t₂, rfl⟩
      · rintro ⟨t₂, heq⟩
        injection heq with h1 h2
        exact ⟨h1.symm, t₂, h2⟩

theorem infixOfB_iff (P : List Char) :
    ∀ T, infixOfB P T = true ↔ ∃ t₁ t₂, T = t₁ ++ (P ++ t₂) := by
  intro T
  induction T with
  | nil =>
    simp only [infixOfB, List.isEmpty_iff]
    constructor
    · rintro rfl
      exact ⟨[], [], rfl⟩
    · rintro ⟨t₁, t₂, heq⟩
      have := List.append_eq_nil.mp heq.symm
      have := List.append_eq_nil.mp this.2
      exact this.1
  | cons c cs ih =>
    simp only [infixOfB, Bool.or_eq_true]
    constructor
    · rintro (h | h)
      · obtain ⟨t, ht⟩ := List.isPrefixOf_iff_prefix.mp h
        exact ⟨[], t, by rw [← ht]; rfl⟩
      · obtain ⟨t₁, t₂, rfl⟩ := ih.mp h
        exact ⟨c :: t₁, t₂, rfl⟩
    · rintro ⟨t₁, t₂, heq⟩
      cases t₁ with
      | nil =>
        left
        exact List.isPrefixOf_iff_prefix.mpr ⟨t₂, by rw [heq]; rfl⟩
      | cons x xs =>
        right
        simp only [List.cons_append] at heq
        injection heq with h1 h2
        exact ih.mpr ⟨xs, t₂, h2⟩

theorem ilike_eq_ciContains (s q : String)
    (hq : ∀ c ∈ lowerL q.data, c ≠ '%' ∧ c ≠ '_') :
    ilike s ("%" ++ q ++ "%") = ciContains s q := by
  have hlow : lowerL ("%" ++ q ++ "%").data = '%' :: (lowerL q.data ++ ['%']) := by
    rw [String.data_append, String.data_append]
    show List.map Char.toLower (('%' :: q.data) ++ ['%']) = _
    rw [List.map_append, List.map_cons]
    rfl
  rw [Bool.eq_iff_iff]
  unfold ilike ciContains
  rw [hlow, likeMatch_pct (lowerL q.data ++ ['%']), infixOfB_iff]
  constructor
  · rintro ⟨t₁, t₂, heq, h2⟩
    obtain ⟨t₃, rfl⟩ := (likeMatch_lit_pct (lowerL q.data) hq t₂).mp h2
    exact ⟨t₁, t₃, heq⟩
  · rintro ⟨t₁, t₃, heq⟩
    exact ⟨t₁, lowerL q.data ++ t₃, heq,
      (likeMatch_lit_pct (lowerL q.data) hq _).mpr ⟨t₃, rfl⟩⟩

theorem mem_insertDesc (e x : Employee) (l : List Employee) :
    x ∈ insertDesc e l ↔ x = e ∨ x ∈ l := by
  induction l with
  | nil => simp [insertDesc]
  | cons y ys ih =>
    simp only [insertDesc]
    split
    · simp [List.mem_cons]
    · simp only [List.mem_cons, ih]
      tauto

theorem pairwise_insertDesc (e : Employee) (l : List Employee)
    (h : l.Pairwise (fun a b => b.created_at ≤ a.created_at)) :
    (insertDesc e l).Pairwise (fun a b => b.created_at ≤ a.created_at) := by
  induction l with
  | nil => simp [insertDesc]
  | cons y ys ih =>
    rw [List.pairwise_cons] at h
    obtain ⟨hy, hys⟩ := h
    simp only [insertDesc]
    split
    · rename_i hle
      rw [List.pairwise_cons]
      refine ⟨?_, List.pairwise_cons.mpr ⟨hy, hys⟩⟩
      intro z hz
      rcases List.mem_cons.mp hz with rfl | hz'
      · exact hle
      · exact le_trans (hy z hz') hle
    · rename_i hgt
      rw [List.pairwise_cons]
      refine ⟨?_, ih hys⟩
      intro z hz
      rcases (mem_insertDesc e z ys).mp hz with rfl | hz'
      · omega
      · exact hy z hz'

theorem sortByCreatedDesc_pairwise (l : List Employee) :
    (sortByCreatedDesc l).Pairwise (fun a b => b.created_at ≤ a.created_at) := by
  induction l with
  | nil => simp [sortByCreatedDesc]
  | cons e es ih => exact pairwise_insertDesc e _ ih

theorem mem_sortByCreatedDesc (x : Employee) (l : List Employee) :
    x ∈ sortByCreatedDesc l ↔ x ∈ l := by
  induction l with
  | nil => simp [sortByCreatedDesc]
  | cons e es ih =>
    simp only [sortByCreatedDesc, mem_insertDesc, ih, List.mem_cons]

theorem filter_insertDesc (e : Employee) (l : List Employee) (t : Nat) :
    (insertDesc e l).filter (fun x => x.created_at == t) =
      if e.created_at == t then e :: l.filter (fun x => x.created_at == t)
      else l.filter (fun x => x.created_at == t) := by
  induction l with
  | nil =>
    simp only [insertDesc]
    rw [List.filter_cons]
  | cons y ys ih =>
    simp only [insertDesc]
    split
    · rename_i hle
      rw [List.filter_cons]
    · rename_i hgt
      rw [List.filter_cons, ih]
      by_cases hy : (y.created_at == t) = true
      · have hpe : (e.created_at == t) = false := by
          rw [beq_eq_false_iff_ne]
          rw [beq_iff_eq] at hy
          omega
        simp [hy, hpe, List.filter_cons]
      · have hy' : (y.created_at == t) = false := by
          rw [← Bool.not_eq_true]
          exact hy
        simp only [hy', if_false, Bool.false_eq_true]
        rw [List.filter_cons, hy']
        simp

theorem filter_sortByCreatedDesc (l : List Employee) (t : Nat) :
    (sortByCreatedDesc l).filter (fun x => x.created_at == t) =
      l.filter (fun x => x.created_at == t) := by
  induction l with
  | nil => rfl
  | cons e es ih =>
    simp only [sortByCreatedDesc]
    rw [filter_insertDesc, ih, List.filter_cons]

theorem dashboard_eq (db : DB) (qRaw spRaw : String)
    (hq : ∀ c ∈ lowerL (pyStrip qRaw).data, c ≠ '%' ∧ c ≠ '_')
    (hsp : ∀ c ∈ lowerL (pyStrip spRaw).data, c ≠ '%' ∧ c ≠ '_') :
    dashboard db qRaw spRaw =
      sortByCreatedDesc (db.employees.filter
        (searchPred (pyStrip qRaw) (pyStrip spRaw))) := by
  have hbq : ∀ s : String,
      ilike s ("%" ++ pyStrip qRaw ++ "%") = ciContains s (pyStrip qRaw) :=
    fun s => ilike_eq_ciContains s (pyStrip qRaw) hq
  have hbsp : ∀ s : String,
      ilike s ("%" ++ pyStrip spRaw ++ "%") = ciContains s (pyStrip spRaw) :=
    fun s => ilike_eq_ciContains s (pyStrip spRaw) hsp
  simp only [dashboard]
  congr 1
  by_cases hsp0 : pyStrip spRaw = ""
  · rw [if_pos hsp0]
    by_cases hq0 : pyStrip qRaw = ""
    · rw [if_pos hq0]
      symm
      apply List.filter_eq_self.mpr
      intro a _
      simp [searchPred, hq0, hsp0]
    · rw [if_neg hq0]
      have hq0' : (pyStrip qRaw == "") = false := beq_eq_false_iff_ne.mpr hq0
      apply List.filter_congr
      intro e _
      simp [searchPred, hq0', hsp0, hbq]
  · rw [if_neg hsp0]
    have hsp0' : (pyStrip spRaw == "") = false := beq_eq_false_iff_ne.mpr hsp0
    by_cases hq0 : pyStrip qRaw = ""
    · rw [if_pos hq0]
      apply List.filter_congr
      intro e _
      simp [searchPred, hq0, hsp0', hbsp]
    · rw [if_neg hq0]
      have hq0' : (pyStrip qRaw == "") = false := beq_eq_false_iff_ne.mpr hq0
      rw [List.filter_filter]
      apply List.filter_congr
      intro e _
      simp only [searchPred, hq0', hsp0', Bool.false_or, hbq, hbsp]
      rw [Bool.and_comm]

/-- C4 counterexample: with the filter `q = "%"` (a SQL `LIKE` wildcard) the
search returns an employee whose name and qualification do not contain the
filter string at all — the filter is interpolated into the `LIKE` pattern
without escaping, so "returns exactly those whose field contains the filter
as a substring" fails for wildcard-bearing filters. -/
theorem dashboard_wildcard_counterexample :
    dashboard ⟨[wildBob], [], 2, 1⟩ "%" "" = [wildBob] ∧
    ciContains wildBob.name "%" = false ∧
    ciContains wildBob.qualification "%" = false := by decide

/-- C4 (amended): provided the stripped filters contain no SQL `LIKE`
wildcard characters (`%`, `_`), the search returns exactly the employees
whose name or qualification contains the first filter as a case-insensitive
substring and whose specialty contains the second (an absent filter imposes
no constraint; the filters combine with AND), ordered by `created_at`
descending with ties kept in insertion order (stable). -/
theorem dashboard_search_correct (db : DB) (qRaw spRaw : String)
    (hq : noWild (pyStrip qRaw) = true) (hsp : noWild (pyStrip spRaw) = true) :
    (∀ e, e ∈ dashboard db qRaw spRaw ↔
      e ∈ db.employees ∧ searchPred (pyStrip qRaw) (pyStrip spRaw) e = true) ∧
    (dashboard db qRaw spRaw).Pairwise (fun a b => b.created_at ≤ a.created_at) ∧
    (∀ t, (dashboard db qRaw spRaw).filter (fun e => e.created_at == t) =
      (db.employees.filter (searchPred (pyStrip qRaw) (pyStrip spRaw))).filter
        (fun e => e.created_at == t)) := by
  have heq := dashboard_eq db qRaw spRaw (noWild_lower _ hq) (noWild_lower _ hsp)
  refine ⟨?_, ?_, ?_⟩
  · intro e
    rw [heq, mem_sortByCreatedDesc, List.mem_filter]
  · rw [heq]
    exact sortByCreatedDesc_pairwise _
  · intro t
    rw [heq, filter_sortByCreatedDesc]

theorem dashboard_search_correct_witness :
    (noWild (pyStrip " ali ") = true ∧ noWild (pyStrip "") = true) ∧
    ((∀ e, e ∈ dashboard searchDB " ali " "" ↔
      e ∈ searchDB.employees ∧ searchPred (pyStrip " ali ") (pyStrip "") e = true) ∧
    (dashboard searchDB " ali " "").Pairwise (fun a b => b.created_at ≤ a.created_at) ∧
    (∀ t, (dashboard searchDB " ali " "").filter (fun e => e.created_at == t) =
      (searchDB.employees.filter (searchPred (pyStrip " ali ") (pyStrip ""))).filter
        (fun e => e.created_at == t))) :=
  ⟨⟨by decide, by decide⟩,
   dashboard_search_correct searchDB " ali " "" (by decide) (by decide)⟩

end EDP
